import Mathlib

set_option maxRecDepth 100000

/-!
Verification of the steganography core of `py-image-stuff`.

The definitions below are a shallow embedding of the pure logic of
`src/py_img_stego.py` (class `ImageSteganography`) and of the data-image
codec of `src/py_text_2_img.py` (class `DataImageEncoder`).

Conventions of the embedding:
* A byte is a `Nat` (with `≤ 255` hypotheses where the source guarantees it).
* An image is its flat list of channel values in row-major order:
  channel `ch` of pixel `(x, y)` of a `w × h` RGB image sits at index
  `(y * w + x) * 3 + ch`.  The randomly generated base image of
  `_encode_lsb` / `_encode_lsb_random` is passed in as a parameter `base`
  (the source fills it with `clamp(120 + ((x*y) % 40) + randint(-20, 20))`,
  always a value in `[0, 255]`).
* SHA-256 (`hashlib.sha256(...).digest()`, an external library call) is an
  arbitrary parameter `H : List Nat → List Nat` producing 32 bytes; every
  theorem quantifies over it.
* `zlib.decompress` is an arbitrary partial function
  `zlibDecompress : List Nat → Option (List Nat)`, `none` modelling
  `zlib.error`.
* The pseudo-random pixel order of `_encode_lsb_random` /
  `_extract_bits_random` (`random.seed(42); random.shuffle(...)`) is passed
  as a parameter `order`; encode and decode receive the same list, exactly
  as the source regenerates the identical order from the fixed seed.
-/

namespace PyImgStego

/-- `StegoConfig.HEADER_SIZE = 4 + 1 + 1 + 2 + 4 + 32`. -/
def HEADER_SIZE : Nat := 44

/-- `StegoConfig.VERSION_MAJOR`. -/
def VERSION_MAJOR : Nat := 2

/-- `StegoAlgorithm` enumeration: `LSB = 1`, `LSB_RANDOM = 2`. -/
inductive StegoAlgorithm where
  | LSB
  | LSB_RANDOM
deriving DecidableEq, Repr

/-- Numeric value of the `StegoAlgorithm` enum member. -/
def StegoAlgorithm.val : StegoAlgorithm → Nat
  | .LSB => 1
  | .LSB_RANDOM => 2

/-- `StegoConfig.MAGIC_BYTES`: ASCII `STLB` for LSB, `STLR` for LSB_RANDOM. -/
def magicBytes : StegoAlgorithm → List Nat
  | .LSB => [83, 84, 76, 66]
  | .LSB_RANDOM => [83, 84, 76, 82]

/-- `StegoConfig.get_algorithm_from_magic`: first algorithm whose magic
bytes equal the given four bytes, else `none`. -/
def algorithmFromMagic (m : List Nat) : Option StegoAlgorithm :=
  if m = magicBytes .LSB then some .LSB
  else if m = magicBytes .LSB_RANDOM then some .LSB_RANDOM
  else none

/-- Error taxonomy of `py_img_stego.py` (`StegoError` subclasses), plus
`structError` for the `struct.error` that `struct.pack('<I', payload_len)`
in `_create_header` raises when the payload length does not fit an
unsigned 32-bit integer — that exception is not a `StegoError` in the
source but propagates out of `encode` all the same.  The string carries
the message of the raise site that produced the error. -/
inductive StegoError where
  | insufficientCapacity (msg : String)
  | integrityError (msg : String)
  | unsupportedAlgorithm (msg : String)
  | structError (msg : String)
deriving DecidableEq, Repr

deriving instance DecidableEq for Except

/-- `ImageSteganography._recompute_capacity`:
`total_bytes = w*h*3*bits_per_channel // 8`;
`max_capacity = total_bytes - HEADER_SIZE if total_bytes > HEADER_SIZE else 0`. -/
def maxCapacity (w h bpc : Nat) : Nat :=
  let totalBytes := w * h * 3 * bpc / 8
  if totalBytes > HEADER_SIZE then totalBytes - HEADER_SIZE else 0

/-- Unclamped usable capacity computed inside
`ImageSteganography.choose_bits_for_payload`:
`usable = (w*h*3*b) // 8 - HEADER_SIZE` as a (possibly negative) integer. -/
def usableAt (w h b : Nat) : Int :=
  ((w * h * 3 * b / 8 : Nat) : Int) - (HEADER_SIZE : Int)

/-- The `for b in range(min_bits, max_bits + 1)` loop of
`ImageSteganography.choose_bits_for_payload`: `fuel` is the number of
values of `b` left to try; return the current `b` when
`usable >= payload_len`, otherwise try `b + 1`; when the range is
exhausted the function raises (`none`). -/
def chooseBitsAux (w h payloadLen : Nat) : Nat → Nat → Option Nat
  | _, 0 => none
  | b, fuel + 1 =>
      if (payloadLen : Int) ≤ usableAt w h b then some b
      else chooseBitsAux w h payloadLen (b + 1) fuel

/-- `ImageSteganography.choose_bits_for_payload`: linear search of
`b ∈ [minBits, maxBits]`, returning the first `b` with `usable ≥ payload_len`;
`none` models raising `InsufficientCapacityError`. -/
def chooseBitsForPayload (w h payloadLen : Nat)
    (minBits : Nat := 1) (maxBits : Nat := 3) : Option Nat :=
  chooseBitsAux w h payloadLen minBits (maxBits + 1 - minBits)

/-- `ImageSteganography.clamp`: `max(0, min(255, int(v)))`. -/
def clamp (v : Int) : Int := max 0 (min 255 v)

/-- The pixel engine applies `clamp` to channel values, which are naturals;
this is the same function restricted to `Nat`. -/
def clampN (v : Nat) : Nat := (clamp (v : Int)).toNat

/-- One embedding step of `_encode_lsb` / `_encode_lsb_random`:
`val = channels[ch] & (~(1 << bit_pos)); val = val | (bit << bit_pos)`.
On Python integers `v & ~(1 << p)` clears bit `p` of `v`, which on
naturals is subtracting the isolated bit `v & (1 << p)`. -/
def embedBit (v p b : Nat) : Nat :=
  (v - (v &&& (1 <<< p))) ||| (b <<< p)

/-- `_bits_to_bytes`, inner loop: consume up to 8 bits MSB-first
(`byte = (byte << 1) | bits[i+j]`), shifting in a 0 for each missing bit
(`byte = byte << 1`). -/
def bitsToByte (group : List Nat) : Nat :=
  (group.foldl (fun byte b => (byte <<< 1) ||| b) 0) <<< (8 - group.length)

/-- `_bits_to_bytes`: group the bit list into chunks of 8, MSB-first; a
final group of fewer than 8 bits is padded on the right with 0 bits. -/
def bitsToBytes : List Nat → List Nat
  | b0 :: b1 :: b2 :: b3 :: b4 :: b5 :: b6 :: b7 :: rest =>
      bitsToByte [b0, b1, b2, b3, b4, b5, b6, b7] :: bitsToBytes rest
  | [] => []
  | group => [bitsToByte group]

/-- The `for i in range(8): bits.append((byte >> (7 - i)) & 1)` loop of
the encoders: the 8 bits of one byte, most significant first. -/
def byteToBits (byte : Nat) : List Nat :=
  (List.range 8).map (fun i => (byte >>> (7 - i)) &&& 1)

/-- The bit-conversion loop of `_encode_lsb` / `_encode_lsb_random`:
concatenate the MSB-first bits of every byte. -/
def bytesToBits (data : List Nat) : List Nat :=
  data.flatMap byteToBits

/-- `struct.pack('<I', n)` for `n < 2^32`: four little-endian bytes.  For
`n ≥ 2^32` the source raises `struct.error`; this function is total, and
`encode` models that raise explicitly at the `_create_header` call site
(see the `structError` branch there). -/
def packLE32 (n : Nat) : List Nat :=
  [n % 256, n / 256 % 256, n / 256 ^ 2 % 256, n / 256 ^ 3 % 256]

/-- `struct.unpack('<I', bytes([b0, b1, b2, b3]))[0]`. -/
def unpackLE32 (b0 b1 b2 b3 : Nat) : Nat :=
  b0 + b1 * 256 + b2 * 256 ^ 2 + b3 * 256 ^ 3

/-- `ImageSteganography._create_header`:
`magic + version + algorithm_byte + reserved + length + sha256`. -/
def createHeader (alg : StegoAlgorithm) (payloadLen : Nat)
    (sha256 : List Nat) : List Nat :=
  magicBytes alg ++ [VERSION_MAJOR] ++ [alg.val] ++ [0, 0] ++
    packLE32 payloadLen ++ sha256

/-- Result record of `ImageSteganography._parse_header`. -/
structure HeaderInfo where
  magic : List Nat
  algorithm : StegoAlgorithm
  version : Nat
  algorithmByte : Nat
  payloadLen : Nat
  sha256 : List Nat
deriving DecidableEq, Repr

/-- `ImageSteganography._parse_header`: reject short input
(`IntegrityError('Incomplete header')`), resolve the algorithm from the
magic bytes (`UnsupportedAlgorithmError` on failure), then read version,
algorithm byte, little-endian payload length and stored hash. -/
def parseHeader (hb : List Nat) : Except StegoError HeaderInfo :=
  if hb.length < HEADER_SIZE then
    .error (.integrityError "Incomplete header")
  else
    match algorithmFromMagic (hb.take 4) with
    | none => .error (.unsupportedAlgorithm "Unknown magic bytes")
    | some alg =>
        .ok { magic := hb.take 4
              algorithm := alg
              version := hb.getD 4 0
              algorithmByte := hb.getD 5 0
              payloadLen := unpackLE32 (hb.getD 8 0) (hb.getD 9 0)
                (hb.getD 10 0) (hb.getD 11 0)
              sha256 := (hb.drop 12).take 32 }

/-- One channel of the embedding loops of `_encode_lsb` /
`_encode_lsb_random`: `for bit_pos in range(self.bits_per_channel)`, while
bits remain (`start + p < bits.length`, the `bit_idx >= total_bits` guard),
write bit `start + p` into position `p` and clamp. -/
def embedChannel (bpc : Nat) (bits : List Nat) (start v : Nat) : Nat :=
  (List.range bpc).foldl
    (fun val p =>
      if start + p < bits.length then
        clampN (embedBit val p (bits.getD (start + p) 0))
      else val) v

/-- The embedding loops of `_encode_lsb` over the flat channel list: the
source iterates pixels in row-major order, channels 0,1,2 within a pixel
and bit positions `0..bpc-1` within a channel, consuming bits sequentially
and leaving everything untouched once they run out, so channel number `i`
receives the bits starting at index `i * bpc`. -/
def embedChannels (bits : List Nat) (bpc : Nat) : Nat → List Nat → List Nat
  | _, [] => []
  | s, v :: rest => embedChannel bpc bits s v :: embedChannels bits bpc (s + bpc) rest

/-- `_encode_lsb` restricted to its embedding phase; the already-generated
random base image is the parameter `base`. -/
def encodeLsb (base : List Nat) (bits : List Nat) (bpc : Nat) : List Nat :=
  embedChannels bits bpc 0 base

/-- One pixel of `_encode_lsb_random`: write its three channels, whose bits
start at index `s`. -/
def embedPixelAt (bits : List Nat) (bpc : Nat) (img : List Nat) (pix s : Nat) :
    List Nat :=
  let i := pix * 3
  let img0 := img.set i (embedChannel bpc bits s (img.getD i 0))
  let img1 := img0.set (i + 1) (embedChannel bpc bits (s + bpc) (img0.getD (i + 1) 0))
  img1.set (i + 2) (embedChannel bpc bits (s + 2 * bpc) (img1.getD (i + 2) 0))

/-- The embedding phase of `_encode_lsb_random`: pixels visited in the
permuted order `order` (the source shuffles the row-major coordinate list
with `random.seed(42)`); the k-th visited pixel consumes the bits starting
at `k * 3 * bpc`. -/
def encodeLsbRandom (base : List Nat) (order : List Nat) (bits : List Nat)
    (bpc : Nat) : List Nat :=
  order.enum.foldl (fun img kp => embedPixelAt bits bpc img kp.2 (kp.1 * (3 * bpc))) base

/-- The bits `_extract_bits` reads from one channel:
`(channels[ch] >> bit_pos) & 1` for `bit_pos in range(bpc)`. -/
def channelBits (bpc v : Nat) : List Nat :=
  (List.range bpc).map (fun p => (v >>> p) &&& 1)

/-- The full slot sequence visited by `_extract_bits`: channels in
row-major order, `bpc` bit positions per channel. -/
def allSlots (img : List Nat) (bpc : Nat) : List Nat :=
  img.flatMap (channelBits bpc)

/-- `_extract_bits`: every slot is counted; those with counter ≥ `offset`
are collected until `num` bits are gathered (fewer are returned when the
image is exhausted first). -/
def extractBits (img : List Nat) (bpc num offset : Nat) : List Nat :=
  ((allSlots img bpc).drop offset).take num

/-- The channel sequence visited by the permuted traversal of
`_extract_bits_random`: for each pixel of `order`, its three channels. -/
def permutedChannels (img : List Nat) (order : List Nat) : List Nat :=
  order.flatMap (fun pix =>
    [img.getD (pix * 3) 0, img.getD (pix * 3 + 1) 0, img.getD (pix * 3 + 2) 0])

/-- `_extract_bits_random`: same as `_extract_bits` but over the permuted
pixel order. -/
def extractBitsRandom (img : List Nat) (order : List Nat) (bpc num offset : Nat) :
    List Nat :=
  ((allSlots (permutedChannels img order) bpc).drop offset).take num

/-- `ImageSteganography.encode` with `compress=False`, no password and
`auto_bits=False`: `payload = data`, `sha256 = H(payload)`
(`_prepare_payload`), capacity check
(`payload_len > self.max_capacity` raises `InsufficientCapacityError`),
header construction, then embedding with the configured algorithm.  The
`structError` branch models `struct.pack('<I', payload_len)` inside the
`_create_header` call raising `struct.error` when the length exceeds the
u32 range (`createHeader`/`packLE32` are total, so the raise is modelled
at the call site).  On every error path no image is produced. -/
def encode (w h bpc : Nat) (alg : StegoAlgorithm) (order : List Nat)
    (base : List Nat) (H : List Nat → List Nat) (data : List Nat) :
    Except StegoError (List Nat) :=
  let payload := data
  let sha256 := H payload
  let payloadLen := payload.length
  if payloadLen > maxCapacity w h bpc then
    .error (.insufficientCapacity "Payload exceeds capacity")
  else if 2 ^ 32 ≤ payloadLen then
    .error (.structError "struct.pack argument out of range")
  else
    let header := createHeader alg payloadLen sha256
    let bits := bytesToBits (header ++ payload)
    match alg with
    | .LSB => .ok (encodeLsb base bits bpc)
    | .LSB_RANDOM => .ok (encodeLsbRandom base order bits bpc)

/-- `ImageSteganography.decode` with no password: extract the 44-byte
header with the sequential extractor, parse it, switch to the algorithm the
header names for payload extraction, verify SHA-256 of the extracted
payload against the stored hash (`IntegrityError` on mismatch), then, when
`compressed` is true, decompress — falling back to the raw bytes when
`zlib.decompress` raises (`except zlib.error`). -/
def decode (bpc : Nat) (order : List Nat) (H : List Nat → List Nat)
    (zlibDecompress : List Nat → Option (List Nat)) (compressed : Bool)
    (img : List Nat) : Except StegoError (List Nat) :=
  let headerBitsNeeded := HEADER_SIZE * 8
  let headerBits := extractBits img bpc headerBitsNeeded 0
  match parseHeader (bitsToBytes headerBits) with
  | .error e => .error e
  | .ok info =>
      let payloadBitsNeeded := info.payloadLen * 8
      let payloadBits :=
        match info.algorithm with
        | .LSB => extractBits img bpc payloadBitsNeeded headerBitsNeeded
        | .LSB_RANDOM =>
            extractBitsRandom img order bpc payloadBitsNeeded headerBitsNeeded
      let payloadBytes := bitsToBytes payloadBits
      if H payloadBytes ≠ info.sha256 then
        .error (.integrityError "SHA-256 mismatch")
      else
        .ok (if compressed then (zlibDecompress payloadBytes).getD payloadBytes
             else payloadBytes)

/-- Flipping embedded bit number `j` of an image: slot `j` lives in channel
`j / bpc` at bit position `j % bpc`, and XOR with the corresponding power
of two flips exactly that bit.  This models the corruption quantified over
in the corruption-detection claim; it is not source code. -/
def flipBitInImage (img : List Nat) (bpc j : Nat) : List Nat :=
  img.set (j / bpc) ((img.getD (j / bpc) 0) ^^^ (1 <<< (j % bpc)))

/-- The payload with bit number `t` (MSB-first within bytes) flipped: byte
`t / 8` is XOR-ed with `2 ^ (7 - t % 8)`.  Used to state what the decoder
extracts from an image whose embedded payload bit `t` was flipped. -/
def flipPayloadByte (p : List Nat) (t : Nat) : List Nat :=
  p.set (t / 8) ((p.getD (t / 8) 0) ^^^ (1 <<< (7 - t % 8)))

/-- Proof device (not source code): the slot sequence of an image after the
sequential embedding pass — slot `j` holds bit `s + j` of the bit list when
that index exists, and the original slot value otherwise. -/
def mixSlots (bits : List Nat) : Nat → List Nat → List Nat
  | _, [] => []
  | s, v :: rest =>
      (if s < bits.length then bits.getD s 0 else v) :: mixSlots bits (s + 1) rest

end PyImgStego

namespace PyText2Img

open PyImgStego (packLE32 unpackLE32)

/-- One reduction round of CRC-32: shift right one bit, XOR the reflected
polynomial `0xEDB88320` when the dropped bit was set. -/
def crcRound (c : Nat) : Nat :=
  if c &&& 1 = 1 then (c >>> 1) ^^^ 0xEDB88320 else c >>> 1

/-- Fold one data byte into the CRC-32 state: XOR it in, then eight
reduction rounds. -/
def crcByte (c b : Nat) : Nat := crcRound^[8] (c ^^^ b)

/-- Modelled from the spec: `zlib.crc32(data) & 0xFFFFFFFF` is an external
library call; this is the standard CRC-32 (reflected polynomial
`0xEDB88320`, initial value and final XOR `0xFFFFFFFF`) that it computes,
the "CRC32 checksum" of the spec. -/
def crc32 (data : List Nat) : Nat :=
  (data.foldl crcByte 0xFFFFFFFF) ^^^ 0xFFFFFFFF

/-- `DataImageEncoder.MAGIC = b'DATA'`. -/
def MAGIC_DATA : List Nat := [68, 65, 84, 65]

/-- `DataImageEncoder.HEADER_SIZE`. -/
def DATA_HEADER_SIZE : Nat := 16

/-- `DataImageEncoder.FLAG_ERROR_CORRECTION`. -/
def FLAG_ERROR_CORRECTION : Nat := 1

/-- `DataImageEncoder.encode` at the byte level: the flat channel bytes of
the produced image are header ++ RS-encoded data, padded with white (255)
channels to fill the image (`_create_image_with_data` stores one byte per
channel in row-major order).  `rsEncoded` is the output of the external
`reedsolo.RSCodec(nsym).encode(data)` call; the header stores its length
and its CRC-32. -/
def dataEncodeBytes (rsEncoded : List Nat) (pad : Nat) : List Nat :=
  MAGIC_DATA ++ [FLAG_ERROR_CORRECTION] ++ [0, 0, 0] ++
    packLE32 rsEncoded.length ++ packLE32 (crc32 rsEncoded) ++
    rsEncoded ++ List.replicate pad 255

/-- Error taxonomy of `DataImageEncoder.decode` (all raised as `ValueError`
in the source, with distinct messages). -/
inductive DataDecodeError where
  | tooSmall
  | badMagic
  | noEcc
  | truncated
  | crcMismatch
  | rsFailure
deriving DecidableEq, Repr

/-- `DataImageEncoder.decode` from the flat byte array read off the image
(row-major, 3 bytes per pixel): validate size, magic and the
error-correction flag, read length and stored CRC, check the CRC-32 over
the still-RS-encoded bytes, and only if it matches run Reed-Solomon
decoding (`rsDecode`, the external `reedsolo` call; `none` models its
failure). -/
def dataDecode (rsDecode : List Nat → Option (List Nat))
    (byteArray : List Nat) : Except DataDecodeError (List Nat) :=
  if byteArray.length < DATA_HEADER_SIZE then .error .tooSmall
  else if byteArray.take 4 ≠ MAGIC_DATA then .error .badMagic
  else if (byteArray.getD 4 0) &&& FLAG_ERROR_CORRECTION = 0 then .error .noEcc
  else
    let dataLength := unpackLE32 (byteArray.getD 8 0) (byteArray.getD 9 0)
      (byteArray.getD 10 0) (byteArray.getD 11 0)
    let storedCrc := unpackLE32 (byteArray.getD 12 0) (byteArray.getD 13 0)
      (byteArray.getD 14 0) (byteArray.getD 15 0)
    if byteArray.length < DATA_HEADER_SIZE + dataLength then .error .truncated
    else
      let dataBytes := (byteArray.drop DATA_HEADER_SIZE).take dataLength
      if crc32 dataBytes ≠ storedCrc then .error .crcMismatch
      else
        match rsDecode dataBytes with
        | none => .error .rsFailure
        | some d => .ok d

end PyText2Img

namespace PyImgStego

/-! ### Helper lemmas -/

theorem unpack_pack_le32 (n : Nat) (hn : n < 2 ^ 32) :
    unpackLE32 (n % 256) (n / 256 % 256) (n / 256 ^ 2 % 256) (n / 256 ^ 3 % 256) = n := by
  simp only [unpackLE32]
  have h2 : (256 : Nat) ^ 2 = 65536 := by norm_num
  have h3 : (256 : Nat) ^ 3 = 16777216 := by norm_num
  have h32 : (2 : Nat) ^ 32 = 4294967296 := by norm_num
  rw [h2, h3] at *
  omega

theorem parse_create_header (alg : StegoAlgorithm) (l : Nat) (hsh : List Nat)
    (hl : l < 2 ^ 32) (hlen : hsh.length = 32) :
    parseHeader (createHeader alg l hsh) =
      .ok { magic := magicBytes alg, algorithm := alg, version := VERSION_MAJOR,
            algorithmByte := alg.val, payloadLen := l, sha256 := hsh } := by
  have hup := unpack_pack_le32 l hl
  cases alg <;>
    simp_all [createHeader, parseHeader, magicBytes, algorithmFromMagic,
      HEADER_SIZE, VERSION_MAJOR, StegoAlgorithm.val, packLE32, List.getD,
      List.take_of_length_le, hlen]

theorem chooseBitsAux_spec (w h payloadLen : Nat) :
    ∀ fuel b,
      (∀ bb, chooseBitsAux w h payloadLen b fuel = some bb →
          b ≤ bb ∧ bb < b + fuel ∧ (payloadLen : Int) ≤ usableAt w h bb ∧
            ∀ b2, b ≤ b2 → b2 < bb → usableAt w h b2 < (payloadLen : Int)) ∧
      (chooseBitsAux w h payloadLen b fuel = none →
          ∀ b2, b ≤ b2 → b2 < b + fuel → usableAt w h b2 < (payloadLen : Int)) := by
  intro fuel
  induction fuel with
  | zero =>
      intro b
      refine ⟨fun bb hbb => by simp [chooseBitsAux] at hbb, fun _ b2 h1 h2 => by omega⟩
  | succ n ih =>
      intro b
      constructor
      · intro bb hbb
        rw [chooseBitsAux] at hbb
        by_cases hc : (payloadLen : Int) ≤ usableAt w h b
        · rw [if_pos hc] at hbb
          cases hbb
          exact ⟨le_refl _, by omega, hc, fun b2 h1 h2 => absurd h1 (by omega)⟩
        · rw [if_neg hc] at hbb
          obtain ⟨ha, hb2, hc2, hmin⟩ := (ih (b + 1)).1 bb hbb
          refine ⟨by omega, by omega, hc2, ?_⟩
          intro b2 h1 h2
          rcases eq_or_lt_of_le h1 with rfl | h1a
          · exact not_le.mp hc
          · exact hmin b2 (by omega) h2
      · intro hnone b2 h1 h2
        rw [chooseBitsAux] at hnone
        by_cases hc : (payloadLen : Int) ≤ usableAt w h b
        · rw [if_pos hc] at hnone; cases hnone
        · rw [if_neg hc] at hnone
          rcases eq_or_lt_of_le h1 with rfl | h1a
          · exact not_le.mp hc
          · exact (ih (b + 1)).2 hnone b2 (by omega) (by omega)

theorem getD_le_of_all {bits : List Nat} {m : Nat} (hbits : ∀ x ∈ bits, x ≤ m)
    (i : Nat) : bits.getD i 0 ≤ m := by
  rcases Nat.lt_or_ge i bits.length with hlt | hge
  · rw [List.getD_eq_getElem?_getD, List.getElem?_eq_getElem hlt]
    exact hbits _ (List.getElem_mem hlt)
  · rw [List.getD_eq_getElem?_getD, List.getElem?_eq_none (by omega)]
    simp

theorem channelBits_length (bpc v : Nat) : (channelBits bpc v).length = bpc := by
  simp [channelBits]

theorem allSlots_cons (x : Nat) (l : List Nat) (bpc : Nat) :
    allSlots (x :: l) bpc = channelBits bpc x ++ allSlots l bpc := by
  simp [allSlots]

theorem allSlots_length (img : List Nat) (bpc : Nat) :
    (allSlots img bpc).length = img.length * bpc := by
  induction img with
  | nil => simp [allSlots]
  | cons v rest ih =>
      rw [allSlots_cons, List.length_append, channelBits_length, ih,
        List.length_cons, Nat.succ_mul]
      omega

theorem mixSlots_append (bits a : List Nat) :
    ∀ (b : List Nat) (s : Nat),
      mixSlots bits s (a ++ b) = mixSlots bits s a ++ mixSlots bits (s + a.length) b := by
  induction a with
  | nil => intro b s; simp [mixSlots]
  | cons x xs ih =>
      intro b s
      simp only [List.cons_append, mixSlots, List.length_cons]
      rw [show s + (xs.length + 1) = s + 1 + xs.length from by omega]
      exact congrArg (List.cons _) (ih b (s + 1))

theorem embed1_full : ∀ v, v ≤ 255 → ∀ b, b ≤ 1 →
    channelBits 1 (clampN (embedBit v 0 b)) = [b] := by decide

theorem embed2_full : ∀ v, v ≤ 255 → ∀ b0, b0 ≤ 1 → ∀ b1, b1 ≤ 1 →
    channelBits 2 (clampN (embedBit (clampN (embedBit v 0 b0)) 1 b1)) = [b0, b1] := by
  decide

theorem embed2_one : ∀ v, v ≤ 255 → ∀ b0, b0 ≤ 1 →
    channelBits 2 (clampN (embedBit v 0 b0)) = [b0, v >>> 1 &&& 1] := by decide

theorem embed3_full : ∀ v, v ≤ 255 → ∀ b0, b0 ≤ 1 → ∀ b1, b1 ≤ 1 → ∀ b2, b2 ≤ 1 →
    channelBits 3 (clampN (embedBit (clampN (embedBit (clampN (embedBit v 0 b0)) 1 b1)) 2 b2)) =
      [b0, b1, b2] := by decide

theorem embed3_two : ∀ v, v ≤ 255 → ∀ b0, b0 ≤ 1 → ∀ b1, b1 ≤ 1 →
    channelBits 3 (clampN (embedBit (clampN (embedBit v 0 b0)) 1 b1)) =
      [b0, b1, v >>> 2 &&& 1] := by decide

theorem embed3_one : ∀ v, v ≤ 255 → ∀ b0, b0 ≤ 1 →
    channelBits 3 (clampN (embedBit v 0 b0)) = [b0, v >>> 1 &&& 1, v >>> 2 &&& 1] := by
  decide

theorem channelBits_embedChannel (bpc : Nat) (hbpc : bpc = 1 ∨ bpc = 2 ∨ bpc = 3)
    (bits : List Nat) (hbits : ∀ x ∈ bits, x ≤ 1) (s v : Nat) (hv : v ≤ 255) :
    channelBits bpc (embedChannel bpc bits s v) = mixSlots bits s (channelBits bpc v) := by
  have hg : ∀ i, bits.getD i 0 ≤ 1 := getD_le_of_all hbits
  rcases hbpc with rfl | rfl | rfl
  · rw [show channelBits 1 v = [v >>> 0 &&& 1] from rfl]
    simp only [embedChannel, show List.range 1 = [0] from rfl, List.foldl_cons,
      List.foldl_nil, Nat.add_zero, mixSlots]
    by_cases h0 : s < bits.length
    · rw [if_pos h0, if_pos h0]
      exact embed1_full v hv _ (hg s)
    · rw [if_neg h0, if_neg h0]
      rfl
  · rw [show channelBits 2 v = [v >>> 0 &&& 1, v >>> 1 &&& 1] from rfl]
    simp only [embedChannel, show List.range 2 = [0, 1] from rfl, List.foldl_cons,
      List.foldl_nil, Nat.add_zero, mixSlots]
    by_cases h1 : s + 1 < bits.length
    · have h0 : s < bits.length := by omega
      rw [if_pos h0, if_pos h1, if_pos h0, if_pos h1]
      exact embed2_full v hv _ (hg s) _ (hg (s + 1))
    · by_cases h0 : s < bits.length
      · rw [if_pos h0, if_neg h1, if_pos h0, if_neg h1]
        exact embed2_one v hv _ (hg s)
      · rw [if_neg h0, if_neg h1, if_neg h0, if_neg h1]
        rfl
  · rw [show channelBits 3 v = [v >>> 0 &&& 1, v >>> 1 &&& 1, v >>> 2 &&& 1] from rfl]
    simp only [embedChannel, show List.range 3 = [0, 1, 2] from rfl, List.foldl_cons,
      List.foldl_nil, Nat.add_zero, mixSlots]
    by_cases h2 : s + 2 < bits.length
    · have h0 : s < bits.length := by omega
      have h1 : s + 1 < bits.length := by omega
      rw [if_pos h0, if_pos h1, if_pos h2, if_pos h0, if_pos h1, if_pos h2]
      exact embed3_full v hv _ (hg s) _ (hg (s + 1)) _ (hg (s + 2))
    · by_cases h1 : s + 1 < bits.length
      · have h0 : s < bits.length := by omega
        rw [if_pos h0, if_pos h1, if_neg h2, if_pos h0, if_pos h1, if_neg h2]
        exact embed3_two v hv _ (hg s) _ (hg (s + 1))
      · by_cases h0 : s < bits.length
        · rw [if_pos h0, if_neg h1, if_neg h2, if_pos h0, if_neg h1, if_neg h2]
          exact embed3_one v hv _ (hg s)
        · rw [if_neg h0, if_neg h1, if_neg h2, if_neg h0, if_neg h1, if_neg h2]
          rfl

theorem allSlots_embedChannels (bpc : Nat) (hbpc : bpc = 1 ∨ bpc = 2 ∨ bpc = 3)
    (bits : List Nat) (hbits : ∀ x ∈ bits, x ≤ 1) :
    ∀ (img : List Nat) (s : Nat), (∀ x ∈ img, x ≤ 255) →
      allSlots (embedChannels bits bpc s img) bpc = mixSlots bits s (allSlots img bpc) := by
  intro img
  induction img with
  | nil => intro s _; rfl
  | cons v rest ih =>
      intro s hall
      have hv : v ≤ 255 := hall v (by simp)
      have hrest : ∀ x ∈ rest, x ≤ 255 := fun x hx => hall x (by simp [hx])
      rw [show embedChannels bits bpc s (v :: rest) =
            embedChannel bpc bits s v :: embedChannels bits bpc (s + bpc) rest from rfl]
      rw [allSlots_cons, allSlots_cons, mixSlots_append, channelBits_length]
      rw [channelBits_embedChannel bpc hbpc bits hbits s v hv, ih (s + bpc) hrest]

theorem mixSlots_eq (bits : List Nat) :
    ∀ (orig : List Nat) (s : Nat),
      mixSlots bits s orig =
        (bits.drop s ++ orig.drop (bits.length - s)).take orig.length := by
  intro orig
  induction orig with
  | nil => intro s; simp [mixSlots]
  | cons v rest ih =>
      intro s
      simp only [mixSlots, List.length_cons]
      by_cases hs : s < bits.length
      · rw [if_pos hs, List.drop_eq_getElem_cons hs,
          show bits.length - s = (bits.length - (s + 1)) + 1 from by omega,
          List.drop_succ_cons, List.cons_append, List.take_succ_cons, ih (s + 1)]
        congr 1
        rw [List.getD_eq_getElem?_getD, List.getElem?_eq_getElem hs]
        rfl
      · rw [if_neg hs, List.drop_eq_nil_of_le (by omega),
          show bits.length - s = 0 from by omega, List.drop_zero, List.nil_append,
          List.take_succ_cons, ih (s + 1), List.drop_eq_nil_of_le (by omega),
          show bits.length - (s + 1) = 0 from by omega, List.drop_zero,
          List.nil_append, List.take_of_length_le (Nat.le_refl _)]

theorem mixSlots_fits (bits orig : List Nat) (h : bits.length ≤ orig.length) :
    mixSlots bits 0 orig = bits ++ orig.drop bits.length := by
  rw [mixSlots_eq, List.drop_zero, Nat.sub_zero]
  apply List.take_of_length_le
  rw [List.length_append, List.length_drop]
  omega

theorem mixSlots_overrun (bits orig : List Nat) (h : orig.length ≤ bits.length) :
    mixSlots bits 0 orig = bits.take orig.length := by
  rw [mixSlots_eq, List.drop_zero, Nat.sub_zero, List.drop_eq_nil_of_le h,
    List.append_nil]

theorem bytesToBits_cons (b : Nat) (rest : List Nat) :
    bytesToBits (b :: rest) = byteToBits b ++ bytesToBits rest := by
  simp [bytesToBits]

theorem bytesToBits_append (a b : List Nat) :
    bytesToBits (a ++ b) = bytesToBits a ++ bytesToBits b := by
  simp [bytesToBits]

theorem byteToBits_explicit (b : Nat) :
    byteToBits b = [b >>> 7 &&& 1, b >>> 6 &&& 1, b >>> 5 &&& 1, b >>> 4 &&& 1,
      b >>> 3 &&& 1, b >>> 2 &&& 1, b >>> 1 &&& 1, b >>> 0 &&& 1] := rfl

theorem bytesToBits_length (data : List Nat) :
    (bytesToBits data).length = 8 * data.length := by
  induction data with
  | nil => rfl
  | cons b rest ih =>
      rw [bytesToBits_cons, List.length_append, ih, byteToBits_explicit]
      simp
      omega

theorem bytesToBits_le_one (data : List Nat) : ∀ x ∈ bytesToBits data, x ≤ 1 := by
  intro x hx
  simp only [bytesToBits, byteToBits, List.mem_flatMap, List.mem_map,
    List.mem_range] at hx
  obtain ⟨b, -, i, -, rfl⟩ := hx
  exact Nat.and_le_right

theorem bitsToByte_byte (b : Nat) (hb : b ≤ 255) : bitsToByte (byteToBits b) = b := by
  rw [byteToBits_explicit]
  exact (by decide : ∀ b, b ≤ 255 →
    bitsToByte [b >>> 7 &&& 1, b >>> 6 &&& 1, b >>> 5 &&& 1, b >>> 4 &&& 1,
      b >>> 3 &&& 1, b >>> 2 &&& 1, b >>> 1 &&& 1, b >>> 0 &&& 1] = b) b hb

theorem bitsToBytes_bytesToBits (data : List Nat) (hd : ∀ x ∈ data, x ≤ 255) :
    bitsToBytes (bytesToBits data) = data := by
  induction data with
  | nil => rfl
  | cons b rest ih =>
      have hb : b ≤ 255 := hd b (by simp)
      have hrest : ∀ x ∈ rest, x ≤ 255 := fun x hx => hd x (by simp [hx])
      rw [bytesToBits_cons, byteToBits_explicit]
      simp only [List.cons_append, List.nil_append]
      rw [show bitsToBytes ((b >>> 7 &&& 1) :: (b >>> 6 &&& 1) :: (b >>> 5 &&& 1) ::
            (b >>> 4 &&& 1) :: (b >>> 3 &&& 1) :: (b >>> 2 &&& 1) :: (b >>> 1 &&& 1) ::
            (b >>> 0 &&& 1) :: bytesToBits rest) =
          bitsToByte [b >>> 7 &&& 1, b >>> 6 &&& 1, b >>> 5 &&& 1, b >>> 4 &&& 1,
            b >>> 3 &&& 1, b >>> 2 &&& 1, b >>> 1 &&& 1, b >>> 0 &&& 1] ::
            bitsToBytes (bytesToBits rest) from rfl]
      rw [ih hrest, ← byteToBits_explicit, bitsToByte_byte b hb]

theorem header_bytes_le (alg : StegoAlgorithm) (n : Nat) (sha : List Nat)
    (hsha : ∀ x ∈ sha, x ≤ 255) : ∀ x ∈ createHeader alg n sha, x ≤ 255 := by
  simp only [createHeader]
  refine List.forall_mem_append.mpr ⟨List.forall_mem_append.mpr
    ⟨List.forall_mem_append.mpr ⟨List.forall_mem_append.mpr
      ⟨List.forall_mem_append.mpr ⟨?_, ?_⟩, ?_⟩, ?_⟩, ?_⟩, hsha⟩
  · cases alg <;> intro x hx <;> simp only [magicBytes, List.mem_cons,
      List.not_mem_nil, or_false] at hx <;> omega
  · intro x hx
    simp only [VERSION_MAJOR, List.mem_cons, List.not_mem_nil, or_false] at hx
    omega
  · cases alg <;> intro x hx <;> simp only [StegoAlgorithm.val, List.mem_cons,
      List.not_mem_nil, or_false] at hx <;> omega
  · intro x hx
    simp only [List.mem_cons, List.not_mem_nil, or_false] at hx
    rcases hx with rfl | rfl <;> omega
  · intro x hx
    simp only [packLE32, List.mem_cons, List.not_mem_nil, or_false] at hx
    rcases hx with rfl | rfl | rfl | rfl <;> omega

theorem createHeader_length (alg : StegoAlgorithm) (n : Nat) (sha : List Nat)
    (hsha : sha.length = 32) : (createHeader alg n sha).length = 44 := by
  cases alg <;> simp [createHeader, magicBytes, packLE32, hsha]

theorem lsb_encode_decode_general (w h bpc : Nat)
    (hbpc : bpc = 1 ∨ bpc = 2 ∨ bpc = 3)
    (base : List Nat) (hbaselen : base.length = w * h * 3)
    (hbase : ∀ x ∈ base, x ≤ 255)
    (H : List Nat → List Nat) (p : List Nat) (hp : ∀ x ∈ p, x ≤ 255)
    (hplen : p.length ≤ maxCapacity w h bpc) (hcap : 0 < maxCapacity w h bpc)
    (hp32 : p.length < 2 ^ 32) (hH : (H p).length = 32)
    (hHb : ∀ x ∈ H p, x ≤ 255)
    (order : List Nat) (zlibD : List Nat → Option (List Nat))
    (compressed : Bool) :
    encode w h bpc .LSB order base H p =
      .ok (encodeLsb base (bytesToBits (createHeader .LSB p.length (H p) ++ p)) bpc) ∧
    decode bpc order H zlibD compressed
        (encodeLsb base (bytesToBits (createHeader .LSB p.length (H p) ++ p)) bpc) =
      .ok (if compressed then (zlibD p).getD p else p) := by
  have hheaderlen : (createHeader .LSB p.length (H p)).length = 44 :=
    createHeader_length _ _ _ hH
  have hheader255 : ∀ x ∈ createHeader .LSB p.length (H p), x ≤ 255 :=
    header_bytes_le _ _ _ hHb
  have hcap2 : 44 < w * h * 3 * bpc / 8 ∧
      maxCapacity w h bpc = w * h * 3 * bpc / 8 - 44 := by
    by_cases hc : 44 < w * h * 3 * bpc / 8
    · exact ⟨hc, by simp [maxCapacity, HEADER_SIZE, hc]⟩
    · exfalso
      have : maxCapacity w h bpc = 0 := by
        simp only [maxCapacity, HEADER_SIZE]
        rw [if_neg (by omega)]
      omega
  have hbitslen : (bytesToBits (createHeader .LSB p.length (H p) ++ p)).length =
      8 * (44 + p.length) := by
    rw [bytesToBits_length, List.length_append, hheaderlen]
  have hbits1 := bytesToBits_le_one (createHeader .LSB p.length (H p) ++ p)
  have hsl : (bytesToBits (createHeader .LSB p.length (H p) ++ p)).length ≤
      (allSlots base bpc).length := by
    rw [allSlots_length, hbaselen, hbitslen]
    have hdm := Nat.div_mul_le_self (w * h * 3 * bpc) 8
    omega
  have hslots : allSlots (encodeLsb base
        (bytesToBits (createHeader .LSB p.length (H p) ++ p)) bpc) bpc =
      bytesToBits (createHeader .LSB p.length (H p)) ++ (bytesToBits p ++
        (allSlots base bpc).drop
          (bytesToBits (createHeader .LSB p.length (H p) ++ p)).length) := by
    rw [show encodeLsb base (bytesToBits (createHeader .LSB p.length (H p) ++ p)) bpc =
        embedChannels (bytesToBits (createHeader .LSB p.length (H p) ++ p)) bpc 0 base
        from rfl]
    rw [allSlots_embedChannels bpc hbpc _ hbits1 base 0 hbase]
    rw [mixSlots_fits _ _ hsl, bytesToBits_append, List.append_assoc]
  have hHdrBits : (bytesToBits (createHeader .LSB p.length (H p))).length =
      HEADER_SIZE * 8 := by
    rw [bytesToBits_length, hheaderlen]
    rfl
  have hPBits : (bytesToBits p).length = p.length * 8 := by
    rw [bytesToBits_length]
    omega
  refine ⟨?_, ?_⟩
  · simp only [encode]
    rw [if_neg (by omega : ¬ p.length > maxCapacity w h bpc),
      if_neg (not_le.mpr hp32)]
  · simp only [decode, extractBits, hslots, List.drop_zero]
    rw [List.take_left' hHdrBits,
      bitsToBytes_bytesToBits _ hheader255,
      parse_create_header .LSB p.length (H p) hp32 hH]
    simp only [List.drop_left' hHdrBits, List.take_left' hPBits,
      bitsToBytes_bytesToBits p hp]
    rw [if_neg (by simp : ¬ H p ≠ H p)]

theorem getD_append_left {a b : List Nat} {i : Nat} (h : i < a.length) :
    (a ++ b).getD i 0 = a.getD i 0 := by
  rw [List.getD_eq_getElem?_getD, List.getD_eq_getElem?_getD,
    List.getElem?_append_left h]

theorem getD_append_right {a b : List Nat} {i : Nat} (h : a.length ≤ i) :
    (a ++ b).getD i 0 = b.getD (i - a.length) 0 := by
  rw [List.getD_eq_getElem?_getD, List.getD_eq_getElem?_getD,
    List.getElem?_append_right h]

theorem byteToBits_length (b : Nat) : (byteToBits b).length = 8 := by
  rw [byteToBits_explicit]
  rfl

theorem flip_chan_1_0 : ∀ v, v ≤ 255 → channelBits 1 (v ^^^ (1 <<< 0)) =
    (channelBits 1 v).set 0 ((channelBits 1 v).getD 0 0 ^^^ 1) := by decide

theorem flip_chan_2_0 : ∀ v, v ≤ 255 → channelBits 2 (v ^^^ (1 <<< 0)) =
    (channelBits 2 v).set 0 ((channelBits 2 v).getD 0 0 ^^^ 1) := by decide

theorem flip_chan_2_1 : ∀ v, v ≤ 255 → channelBits 2 (v ^^^ (1 <<< 1)) =
    (channelBits 2 v).set 1 ((channelBits 2 v).getD 1 0 ^^^ 1) := by decide

theorem flip_chan_3_0 : ∀ v, v ≤ 255 → channelBits 3 (v ^^^ (1 <<< 0)) =
    (channelBits 3 v).set 0 ((channelBits 3 v).getD 0 0 ^^^ 1) := by decide

theorem flip_chan_3_1 : ∀ v, v ≤ 255 → channelBits 3 (v ^^^ (1 <<< 1)) =
    (channelBits 3 v).set 1 ((channelBits 3 v).getD 1 0 ^^^ 1) := by decide

theorem flip_chan_3_2 : ∀ v, v ≤ 255 → channelBits 3 (v ^^^ (1 <<< 2)) =
    (channelBits 3 v).set 2 ((channelBits 3 v).getD 2 0 ^^^ 1) := by decide

theorem allSlots_flip (bpc : Nat) (hbpc : bpc = 1 ∨ bpc = 2 ∨ bpc = 3) :
    ∀ (img : List Nat), (∀ x ∈ img, x ≤ 255) → ∀ j, j < img.length * bpc →
      allSlots (flipBitInImage img bpc j) bpc =
        (allSlots img bpc).set j ((allSlots img bpc).getD j 0 ^^^ 1) := by
  intro img
  induction img with
  | nil => intro _ j hj; simp at hj
  | cons v rest ih =>
      intro hall j hj
      have hv : v ≤ 255 := hall v (by simp)
      have hrest : ∀ x ∈ rest, x ≤ 255 := fun x hx => hall x (by simp [hx])
      have hbpcpos : 0 < bpc := by omega
      by_cases hjb : j < bpc
      · have hdiv : j / bpc = 0 := Nat.div_eq_of_lt hjb
        have hmod : j % bpc = j := Nat.mod_eq_of_lt hjb
        rw [flipBitInImage, hdiv, hmod]
        rw [show (v :: rest).getD 0 0 = v from rfl, List.set_cons_zero]
        rw [allSlots_cons, allSlots_cons]
        rw [List.set_append_left _ _ (by rw [channelBits_length]; omega),
          getD_append_left (by rw [channelBits_length]; omega)]
        congr 1
        rcases hbpc with rfl | rfl | rfl
        · have hj0 : j = 0 := by omega
          subst hj0
          exact flip_chan_1_0 v hv
        · rcases (by omega : j = 0 ∨ j = 1) with rfl | rfl
          · exact flip_chan_2_0 v hv
          · exact flip_chan_2_1 v hv
        · rcases (by omega : j = 0 ∨ j = 1 ∨ j = 2) with rfl | rfl | rfl
          · exact flip_chan_3_0 v hv
          · exact flip_chan_3_1 v hv
          · exact flip_chan_3_2 v hv
      · obtain ⟨m, rfl⟩ : ∃ m, j = m + bpc := ⟨j - bpc, by omega⟩
        have hdiv : (m + bpc) / bpc = m / bpc + 1 := Nat.add_div_right m hbpcpos
        have hmod : (m + bpc) % bpc = m % bpc := Nat.add_mod_right m bpc
        rw [flipBitInImage, hdiv, hmod, List.getD_cons_succ, List.set_cons_succ]
        rw [allSlots_cons, allSlots_cons]
        rw [List.set_append_right _ _ (by rw [channelBits_length]; omega),
          getD_append_right (by rw [channelBits_length]; omega)]
        rw [channelBits_length, Nat.add_sub_cancel]
        have hm : m < rest.length * bpc := by
          rw [List.length_cons, Nat.succ_mul] at hj
          omega
        rw [← flipBitInImage, ih hrest m hm]

theorem clampN_le (v : Nat) : clampN v ≤ 255 := by
  simp only [clampN, clamp]
  omega

theorem embedChannel_le (bpc : Nat) (bits : List Nat) (s v : Nat) (hv : v ≤ 255) :
    embedChannel bpc bits s v ≤ 255 := by
  simp only [embedChannel]
  generalize List.range bpc = l
  induction l generalizing v with
  | nil => simpa using hv
  | cons q qs ih =>
      simp only [List.foldl_cons]
      apply ih
      split
      · exact clampN_le _
      · exact hv

theorem embedChannels_le (bits : List Nat) (bpc : Nat) :
    ∀ (img : List Nat) (s : Nat), (∀ x ∈ img, x ≤ 255) →
      ∀ x ∈ embedChannels bits bpc s img, x ≤ 255 := by
  intro img
  induction img with
  | nil => intro s _ x hx; simp [embedChannels] at hx
  | cons v rest ih =>
      intro s hall x hx
      have hv : v ≤ 255 := hall v (by simp)
      have hrest : ∀ y ∈ rest, y ≤ 255 := fun y hy => hall y (by simp [hy])
      rw [show embedChannels bits bpc s (v :: rest) =
            embedChannel bpc bits s v :: embedChannels bits bpc (s + bpc) rest
          from rfl] at hx
      rcases List.mem_cons.mp hx with rfl | hx2
      · exact embedChannel_le bpc bits s v hv
      · exact ih (s + bpc) hrest x hx2

theorem embedChannels_length (bits : List Nat) (bpc : Nat) :
    ∀ (img : List Nat) (s : Nat), (embedChannels bits bpc s img).length = img.length := by
  intro img
  induction img with
  | nil => intro s; rfl
  | cons v rest ih =>
      intro s
      rw [show embedChannels bits bpc s (v :: rest) =
            embedChannel bpc bits s v :: embedChannels bits bpc (s + bpc) rest
          from rfl]
      simp [ih (s + bpc)]

theorem flip_byte_bits : ∀ c, c ≤ 255 → ∀ t, t ≤ 7 →
    (byteToBits c).set t ((byteToBits c).getD t 0 ^^^ 1) =
      byteToBits (c ^^^ (1 <<< (7 - t))) := by decide

theorem xor_bit_le : ∀ c, c ≤ 255 → ∀ e, e ≤ 7 → c ^^^ (1 <<< e) ≤ 255 := by decide

theorem xor_bit_ne : ∀ c, c ≤ 255 → ∀ e, e ≤ 7 → c ^^^ (1 <<< e) ≠ c := by decide

theorem bitsToBytes_set_flip :
    ∀ (p : List Nat), (∀ x ∈ p, x ≤ 255) → ∀ t, t < 8 * p.length →
      bitsToBytes ((bytesToBits p).set t ((bytesToBits p).getD t 0 ^^^ 1)) =
        flipPayloadByte p t := by
  intro p
  induction p with
  | nil => intro _ t ht; simp at ht
  | cons c rest ih =>
      intro hall t ht
      have hc : c ≤ 255 := hall c (by simp)
      have hrest : ∀ x ∈ rest, x ≤ 255 := fun x hx => hall x (by simp [hx])
      rw [bytesToBits_cons]
      by_cases h8 : t < 8
      · rw [List.set_append_left _ _ (by rw [byteToBits_length]; omega),
          getD_append_left (by rw [byteToBits_length]; omega)]
        rw [flip_byte_bits c hc t (by omega)]
        have hc2 : c ^^^ (1 <<< (7 - t)) ≤ 255 := xor_bit_le c hc (7 - t) (by omega)
        rw [← bytesToBits_cons,
          bitsToBytes_bytesToBits _ (by
            intro x hx
            rcases List.mem_cons.mp hx with rfl | hx2
            · exact hc2
            · exact hrest x hx2)]
        simp only [flipPayloadByte, Nat.div_eq_of_lt h8, Nat.mod_eq_of_lt h8,
          List.getD_cons_zero, List.set_cons_zero]
      · obtain ⟨m, rfl⟩ : ∃ m, t = m + 8 := ⟨t - 8, by omega⟩
        rw [List.set_append_right _ _ (by rw [byteToBits_length]; omega),
          getD_append_right (by rw [byteToBits_length]; omega)]
        rw [byteToBits_length, Nat.add_sub_cancel]
        rw [byteToBits_explicit]
        simp only [List.cons_append, List.nil_append]
        rw [show bitsToBytes ((c >>> 7 &&& 1) :: (c >>> 6 &&& 1) :: (c >>> 5 &&& 1) ::
              (c >>> 4 &&& 1) :: (c >>> 3 &&& 1) :: (c >>> 2 &&& 1) :: (c >>> 1 &&& 1) ::
              (c >>> 0 &&& 1) ::
              (bytesToBits rest).set m ((bytesToBits rest).getD m 0 ^^^ 1)) =
            bitsToByte [c >>> 7 &&& 1, c >>> 6 &&& 1, c >>> 5 &&& 1, c >>> 4 &&& 1,
              c >>> 3 &&& 1, c >>> 2 &&& 1, c >>> 1 &&& 1, c >>> 0 &&& 1] ::
              bitsToBytes ((bytesToBits rest).set m ((bytesToBits rest).getD m 0 ^^^ 1))
          from rfl]
        rw [ih hrest m (by simp at ht; omega), ← byteToBits_explicit, bitsToByte_byte c hc]
        simp only [flipPayloadByte, Nat.add_div_right m (by omega : 0 < 8),
          Nat.add_mod_right, List.getD_cons_succ, List.set_cons_succ]

theorem flipPayloadByte_ne (p : List Nat) (hp : ∀ x ∈ p, x ≤ 255) (t : Nat)
    (ht : t < 8 * p.length) : flipPayloadByte p t ≠ p := by
  intro heq
  have hk : t / 8 < p.length := by omega
  have hc : p.getD (t / 8) 0 ≤ 255 := getD_le_of_all hp (t / 8)
  have hne : p.getD (t / 8) 0 ^^^ (1 <<< (7 - t % 8)) ≠ p.getD (t / 8) 0 :=
    xor_bit_ne _ hc _ (by omega)
  apply hne
  have := congrArg (fun l => l.getD (t / 8) 0) heq
  simpa [flipPayloadByte, List.getD_eq_getElem?_getD, List.getElem?_set_self hk,
    List.getElem?_eq_getElem hk] using this

theorem lsb_decode_flipped (w h bpc : Nat)
    (hbpc : bpc = 1 ∨ bpc = 2 ∨ bpc = 3)
    (base : List Nat) (hbaselen : base.length = w * h * 3)
    (hbase : ∀ x ∈ base, x ≤ 255)
    (H : List Nat → List Nat) (p : List Nat) (hp : ∀ x ∈ p, x ≤ 255)
    (hplen : p.length ≤ maxCapacity w h bpc) (hcap : 0 < maxCapacity w h bpc)
    (hp32 : p.length < 2 ^ 32) (hH : (H p).length = 32)
    (hHb : ∀ x ∈ H p, x ≤ 255)
    (order : List Nat) (zlibD : List Nat → Option (List Nat))
    (t : Nat) (ht : t < 8 * p.length) :
    decode bpc order H zlibD false
        (flipBitInImage
          (encodeLsb base (bytesToBits (createHeader .LSB p.length (H p) ++ p)) bpc)
          bpc (HEADER_SIZE * 8 + t)) =
      (if H (flipPayloadByte p t) = H p then .ok (flipPayloadByte p t)
       else .error (.integrityError "SHA-256 mismatch")) := by
  have hheaderlen : (createHeader .LSB p.length (H p)).length = 44 :=
    createHeader_length _ _ _ hH
  have hheader255 : ∀ x ∈ createHeader .LSB p.length (H p), x ≤ 255 :=
    header_bytes_le _ _ _ hHb
  have hcap2 : 44 < w * h * 3 * bpc / 8 ∧
      maxCapacity w h bpc = w * h * 3 * bpc / 8 - 44 := by
    by_cases hc : 44 < w * h * 3 * bpc / 8
    · exact ⟨hc, by simp [maxCapacity, HEADER_SIZE, hc]⟩
    · exfalso
      have : maxCapacity w h bpc = 0 := by
        simp only [maxCapacity, HEADER_SIZE]
        rw [if_neg (by omega)]
      omega
  have hbitslen : (bytesToBits (createHeader .LSB p.length (H p) ++ p)).length =
      8 * (44 + p.length) := by
    rw [bytesToBits_length, List.length_append, hheaderlen]
  have hbits1 := bytesToBits_le_one (createHeader .LSB p.length (H p) ++ p)
  have hsl : (bytesToBits (createHeader .LSB p.length (H p) ++ p)).length ≤
      (allSlots base bpc).length := by
    rw [allSlots_length, hbaselen, hbitslen]
    have hdm := Nat.div_mul_le_self (w * h * 3 * bpc) 8
    omega
  have hslots : allSlots (encodeLsb base
        (bytesToBits (createHeader .LSB p.length (H p) ++ p)) bpc) bpc =
      bytesToBits (createHeader .LSB p.length (H p)) ++ (bytesToBits p ++
        (allSlots base bpc).drop
          (bytesToBits (createHeader .LSB p.length (H p) ++ p)).length) := by
    rw [show encodeLsb base (bytesToBits (createHeader .LSB p.length (H p) ++ p)) bpc =
        embedChannels (bytesToBits (createHeader .LSB p.length (H p) ++ p)) bpc 0 base
        from rfl]
    rw [allSlots_embedChannels bpc hbpc _ hbits1 base 0 hbase]
    rw [mixSlots_fits _ _ hsl, bytesToBits_append, List.append_assoc]
  have hHdrBits : (bytesToBits (createHeader .LSB p.length (H p))).length =
      HEADER_SIZE * 8 := by
    rw [bytesToBits_length, hheaderlen]
    rfl
  have hPBits : (bytesToBits p).length = p.length * 8 := by
    rw [bytesToBits_length]
    omega
  have himg255 : ∀ x ∈ encodeLsb base
      (bytesToBits (createHeader .LSB p.length (H p) ++ p)) bpc, x ≤ 255 :=
    embedChannels_le _ bpc base 0 hbase
  have himglen : (encodeLsb base
      (bytesToBits (createHeader .LSB p.length (H p) ++ p)) bpc).length =
      base.length := embedChannels_length _ bpc base 0
  have hj : HEADER_SIZE * 8 + t < (encodeLsb base
      (bytesToBits (createHeader .LSB p.length (H p) ++ p)) bpc).length * bpc := by
    rw [himglen, hbaselen]
    have hdm := Nat.div_mul_le_self (w * h * 3 * bpc) 8
    have h352 : HEADER_SIZE * 8 = 352 := rfl
    omega
  have hflip := allSlots_flip bpc hbpc _ himg255 (HEADER_SIZE * 8 + t) hj
  rw [hslots] at hflip
  rw [List.set_append_right _ _ (by rw [hHdrBits]; omega),
    getD_append_right (by rw [hHdrBits]; omega), hHdrBits,
    Nat.add_sub_cancel_left] at hflip
  rw [List.set_append_left _ _ (by rw [hPBits]; omega),
    getD_append_left (by rw [hPBits]; omega)] at hflip
  simp only [decode, extractBits, hflip, List.drop_zero]
  rw [List.take_left' hHdrBits,
    bitsToBytes_bytesToBits _ hheader255,
    parse_create_header .LSB p.length (H p) hp32 hH]
  simp only [List.drop_left' hHdrBits,
    List.take_left' (by rw [List.length_set, hPBits] :
      ((bytesToBits p).set t ((bytesToBits p).getD t 0 ^^^ 1)).length = p.length * 8)]
  rw [bitsToBytes_set_flip p hp t ht]
  by_cases hEq : H (flipPayloadByte p t) = H p
  · rw [if_pos hEq, if_neg (by simp [hEq])]
    rfl
  · rw [if_neg hEq, if_pos hEq]

/-! ### Claim C1: encode–decode round trip -/

/-- C1 counterexample: two concrete instances where the payload fits within
`max_capacity` yet decoding the encoded image does not return the payload.
First, a 10x10 image at 1 bit per channel (capacity 0) with the empty
payload: only 300 of the 352 header bits fit, the embedder silently
truncates, and decode fails with `IntegrityError('Incomplete header')`.
Second, a 40x1 image at 3 bits per channel with algorithm LSB_RANDOM and
payload `[7]`: encode embeds the header in the seed-42-shuffled pixel order
(the list below is `random.seed(42); random.shuffle` of the 40 pixel
indices), but decode always reads the header in raster order, so the magic
bytes are garbage and decode fails with `UnsupportedAlgorithmError`. -/
theorem roundtrip_failure_cases :
    (([] : List Nat).length ≤ maxCapacity 10 10 1 ∧
      (encode 10 10 1 .LSB [] (List.replicate 300 120)
          (fun _ => List.replicate 32 0) []).map
          (decode 1 [] (fun _ => List.replicate 32 0) (fun _ => none) false) =
        .ok (.error (.integrityError "Incomplete header"))) ∧
    (([7] : List Nat).length ≤ maxCapacity 40 1 3 ∧
      (encode 40 1 3 .LSB_RANDOM
          [9, 3, 10, 36, 25, 24, 30, 11, 4, 32, 21, 28, 23, 18, 12, 34, 35, 26,
           13, 22, 20, 31, 37, 29, 19, 16, 39, 33, 2, 0, 38, 27, 5, 6, 8, 14,
           15, 17, 1, 7]
          (List.replicate 120 120) (fun _ => List.replicate 32 0) [7]).map
          (decode 3
            [9, 3, 10, 36, 25, 24, 30, 11, 4, 32, 21, 28, 23, 18, 12, 34, 35, 26,
             13, 22, 20, 31, 37, 29, 19, 16, 39, 33, 2, 0, 38, 27, 5, 6, 8, 14,
             15, 17, 1, 7]
            (fun _ => List.replicate 32 0) (fun _ => none) false) =
        .ok (.error (.unsupportedAlgorithm "Unknown magic bytes"))) := by
  refine ⟨⟨by decide, by decide⟩, ⟨by decide, by decide⟩⟩

/-- C1 (amended): for the sequential LSB algorithm, any bits_per_channel in
1..3 and any payload (bytes, length at most `max_capacity`, length below
2^32) on an image whose capacity is positive (so the 44-byte header fits),
decoding the image produced by encode returns exactly the payload, for
every hash function `H` producing 32 bytes, every base image and with
compression disabled on both sides.  The original claim fails for capacity
0 (truncated header) and for algorithm LSB_RANDOM (decode reads the header
in raster order although encode wrote it in permuted order); see the
counterexample. -/
theorem lsb_roundtrip (w h bpc : Nat) (hbpc : bpc = 1 ∨ bpc = 2 ∨ bpc = 3)
    (base : List Nat) (hbaselen : base.length = w * h * 3)
    (hbase : ∀ x ∈ base, x ≤ 255)
    (H : List Nat → List Nat) (p : List Nat) (hp : ∀ x ∈ p, x ≤ 255)
    (hplen : p.length ≤ maxCapacity w h bpc) (hcap : 0 < maxCapacity w h bpc)
    (hp32 : p.length < 2 ^ 32) (hH : (H p).length = 32)
    (hHb : ∀ x ∈ H p, x ≤ 255)
    (order : List Nat) (zlibD : List Nat → Option (List Nat)) :
    ∃ img, encode w h bpc .LSB order base H p = .ok img ∧
      decode bpc order H zlibD false img = .ok p := by
  obtain ⟨he, hd⟩ := lsb_encode_decode_general w h bpc hbpc base hbaselen hbase
    H p hp hplen hcap hp32 hH hHb order zlibD false
  exact ⟨_, he, by rw [hd]; rfl⟩

/-- Witness for C1 (amended) on a 40x1 image, 3 bits per channel,
payload `[7]`. -/
theorem lsb_roundtrip_witness :
    (((3 : Nat) = 1 ∨ (3 : Nat) = 2 ∨ (3 : Nat) = 3) ∧
      (List.replicate 120 120 : List Nat).length = 40 * 1 * 3 ∧
      ([7] : List Nat).length ≤ maxCapacity 40 1 3 ∧
      0 < maxCapacity 40 1 3 ∧ ([7] : List Nat).length < 2 ^ 32) ∧
    (∃ img, encode 40 1 3 .LSB [] (List.replicate 120 120)
        (fun _ => List.replicate 32 0) [7] = .ok img ∧
      decode 3 [] (fun _ => List.replicate 32 0) (fun _ => none) false img =
        .ok [7]) :=
  ⟨⟨by decide, by decide, by decide, by decide, by decide⟩,
    lsb_roundtrip 40 1 3 (by decide) (List.replicate 120 120) (by decide)
      (by decide) (fun _ => List.replicate 32 0) [7] (by decide) (by decide)
      (by decide) (by decide) (by decide) (by decide) [] (fun _ => none)⟩

/-! ### Claim C2: single bit flips in the payload region are detected -/

/-- C2 counterexample: on the 40x1, 3-bits-per-channel LSB_RANDOM image of
payload `[7]`, the first embedded payload bit is permuted slot 352, which
lives in pixel 7 (the 40th entry of the seed-42 order), channel 0, bit
position 1 — raster bit index `(7*3+0)*3+1 = 64`.  Flipping that single
payload-region bit and decoding fails with `UnsupportedAlgorithmError`,
not the `IntegrityError` the claim requires (the decoder reads the header
from raster order, where the magic is garbage for LSB_RANDOM images). -/
theorem single_bitflip_random_not_integrity :
    (encode 40 1 3 .LSB_RANDOM
        [9, 3, 10, 36, 25, 24, 30, 11, 4, 32, 21, 28, 23, 18, 12, 34, 35, 26,
         13, 22, 20, 31, 37, 29, 19, 16, 39, 33, 2, 0, 38, 27, 5, 6, 8, 14,
         15, 17, 1, 7]
        (List.replicate 120 120) (fun _ => List.replicate 32 0) [7]).map
        (fun img => decode 3
          [9, 3, 10, 36, 25, 24, 30, 11, 4, 32, 21, 28, 23, 18, 12, 34, 35, 26,
           13, 22, 20, 31, 37, 29, 19, 16, 39, 33, 2, 0, 38, 27, 5, 6, 8, 14,
           15, 17, 1, 7]
          (fun _ => List.replicate 32 0) (fun _ => none) false
          (flipBitInImage img 3 64)) =
      .ok (.error (.unsupportedAlgorithm "Unknown magic bytes")) := by
  decide

/-- C2 (amended): for a sequentially encoded image (compression off, no
password),
flipping any single embedded payload bit `t` (bit `HEADER_SIZE*8 + t` of
the embedding order, `t < 8 * payload length`) makes the decoder extract
exactly the payload with bit `t` flipped — a byte string different from the
payload — and decode fails with `IntegrityError` precisely when the hash of
that modified payload differs from the stored hash `H p` (which SHA-256
collision resistance makes true in practice for every single-bit change). -/
theorem single_bitflip_detected (w h bpc : Nat)
    (hbpc : bpc = 1 ∨ bpc = 2 ∨ bpc = 3)
    (base : List Nat) (hbaselen : base.length = w * h * 3)
    (hbase : ∀ x ∈ base, x ≤ 255)
    (H : List Nat → List Nat) (p : List Nat) (hp : ∀ x ∈ p, x ≤ 255)
    (hplen : p.length ≤ maxCapacity w h bpc) (hcap : 0 < maxCapacity w h bpc)
    (hp32 : p.length < 2 ^ 32) (hH : (H p).length = 32)
    (hHb : ∀ x ∈ H p, x ≤ 255)
    (order : List Nat) (zlibD : List Nat → Option (List Nat))
    (t : Nat) (ht : t < 8 * p.length) :
    encode w h bpc .LSB order base H p =
      .ok (encodeLsb base (bytesToBits (createHeader .LSB p.length (H p) ++ p)) bpc) ∧
    flipPayloadByte p t ≠ p ∧
    decode bpc order H zlibD false
        (flipBitInImage
          (encodeLsb base (bytesToBits (createHeader .LSB p.length (H p) ++ p)) bpc)
          bpc (HEADER_SIZE * 8 + t)) =
      (if H (flipPayloadByte p t) = H p then .ok (flipPayloadByte p t)
       else .error (.integrityError "SHA-256 mismatch")) :=
  ⟨(lsb_encode_decode_general w h bpc hbpc base hbaselen hbase H p hp hplen
      hcap hp32 hH hHb order zlibD false).1,
    flipPayloadByte_ne p hp t ht,
    lsb_decode_flipped w h bpc hbpc base hbaselen hbase H p hp hplen hcap
      hp32 hH hHb order zlibD t ht⟩

/-- Witness for C2: flipping payload bit 0 of the encoded `[7]` yields
extracted payload `[135]` and, for a hash that separates the two, decode
fails with the SHA-256 `IntegrityError`. -/
theorem single_bitflip_detected_witness :
    (((3 : Nat) = 1 ∨ (3 : Nat) = 2 ∨ (3 : Nat) = 3) ∧ (0 : Nat) < 8 * 1) ∧
    (encode 40 1 3 .LSB [] (List.replicate 120 120)
        (fun l => (l.getD 0 0 % 256) :: List.replicate 31 0) [7] =
      .ok (encodeLsb (List.replicate 120 120)
        (bytesToBits (createHeader .LSB ([7] : List Nat).length
          ((fun l => (l.getD 0 0 % 256) :: List.replicate 31 0) [7]) ++ [7])) 3) ∧
    flipPayloadByte [7] 0 ≠ [7] ∧
    decode 3 [] (fun l => (l.getD 0 0 % 256) :: List.replicate 31 0)
        (fun _ => none) false
        (flipBitInImage
          (encodeLsb (List.replicate 120 120)
            (bytesToBits (createHeader .LSB ([7] : List Nat).length
              ((fun l => (l.getD 0 0 % 256) :: List.replicate 31 0) [7]) ++ [7])) 3)
          3 (HEADER_SIZE * 8 + 0)) =
      (if (fun l => (l.getD 0 0 % 256) :: List.replicate 31 0)
            (flipPayloadByte [7] 0) =
          (fun l => (l.getD 0 0 % 256) :: List.replicate 31 0) [7]
        then .ok (flipPayloadByte [7] 0)
        else .error (.integrityError "SHA-256 mismatch"))) :=
  ⟨⟨by decide, by decide⟩,
    single_bitflip_detected 40 1 3 (by decide) (List.replicate 120 120)
      (by decide) (by decide)
      (fun l => (l.getD 0 0 % 256) :: List.replicate 31 0) [7] (by decide)
      (by decide) (by decide) (by decide) (by decide) (by decide) []
      (fun _ => none) 0 (by decide)⟩

/-! ### Claim C8: the embedding engine truncates instead of failing -/

/-- C8 (what the code actually does at the claimed failing input): the
sequential pixel embedding engine is a total function — its result type
carries no error — and when the bit list is longer than the
`w*h*3*bits_per_channel` available slots it returns a full image holding
only the first `w*h*3*bits_per_channel` bits: the data is silently
truncated and no `InsufficientCapacityError` is raised, contradicting the
claim. -/
theorem embed_silently_truncates (base bits : List Nat) (bpc : Nat)
    (hbpc : bpc = 1 ∨ bpc = 2 ∨ bpc = 3) (hbase : ∀ x ∈ base, x ≤ 255)
    (hbits : ∀ x ∈ bits, x ≤ 1) (hover : base.length * bpc < bits.length) :
    (encodeLsb base bits bpc).length = base.length ∧
    allSlots (encodeLsb base bits bpc) bpc = bits.take (base.length * bpc) := by
  refine ⟨embedChannels_length _ _ _ _, ?_⟩
  rw [show encodeLsb base bits bpc = embedChannels bits bpc 0 base from rfl]
  rw [allSlots_embedChannels bpc hbpc bits hbits base 0 hbase]
  rw [mixSlots_overrun _ _ (by rw [allSlots_length]; omega), allSlots_length]

/-- Witness for C8: one pixel at 1 bit per channel, 8 bits of data — the
engine returns the 3-channel image holding only the first 3 bits. -/
theorem embed_silently_truncates_witness :
    (((1 : Nat) = 1 ∨ (1 : Nat) = 2 ∨ (1 : Nat) = 3) ∧
      (List.replicate 3 120 : List Nat).length * 1 < (byteToBits 255).length) ∧
    ((encodeLsb (List.replicate 3 120) (byteToBits 255) 1).length =
        (List.replicate 3 120 : List Nat).length ∧
      allSlots (encodeLsb (List.replicate 3 120) (byteToBits 255) 1) 1 =
        (byteToBits 255).take ((List.replicate 3 120 : List Nat).length * 1)) :=
  ⟨⟨by decide, by decide⟩,
    embed_silently_truncates (List.replicate 3 120) (byteToBits 255) 1
      (by decide) (by decide) (by decide) (by decide)⟩

/-! ### Claim C9: decompression failures fall back to the raw payload -/

/-- C9: decoding with `compressed=True` an image whose (hash-verified)
payload is not valid zlib data does not fail: the `zlib.error` is swallowed
and the raw extracted payload is returned.  Stated for a sequentially
encoded image of any payload, with `zlibDecompress` failing (`none`) on the
payload bytes. -/
theorem decode_decompress_fallback (w h bpc : Nat)
    (hbpc : bpc = 1 ∨ bpc = 2 ∨ bpc = 3)
    (base : List Nat) (hbaselen : base.length = w * h * 3)
    (hbase : ∀ x ∈ base, x ≤ 255)
    (H : List Nat → List Nat) (p : List Nat) (hp : ∀ x ∈ p, x ≤ 255)
    (hplen : p.length ≤ maxCapacity w h bpc) (hcap : 0 < maxCapacity w h bpc)
    (hp32 : p.length < 2 ^ 32) (hH : (H p).length = 32)
    (hHb : ∀ x ∈ H p, x ≤ 255)
    (order : List Nat) (zlibD : List Nat → Option (List Nat))
    (hz : zlibD p = none) :
    ∃ img, encode w h bpc .LSB order base H p = .ok img ∧
      decode bpc order H zlibD true img = .ok p := by
  obtain ⟨he, hd⟩ := lsb_encode_decode_general w h bpc hbpc base hbaselen hbase
    H p hp hplen hcap hp32 hH hHb order zlibD true
  refine ⟨_, he, ?_⟩
  rw [hd]
  simp [hz]

/-- Witness for C9 with a decompressor that rejects every input. -/
theorem decode_decompress_fallback_witness :
    (((3 : Nat) = 1 ∨ (3 : Nat) = 2 ∨ (3 : Nat) = 3) ∧
      ((fun (_ : List Nat) => (none : Option (List Nat))) [7] = none)) ∧
    (∃ img, encode 40 1 3 .LSB [] (List.replicate 120 120)
        (fun _ => List.replicate 32 0) [7] = .ok img ∧
      decode 3 [] (fun _ => List.replicate 32 0) (fun _ => none) true img =
        .ok [7]) :=
  ⟨⟨by decide, by decide⟩,
    decode_decompress_fallback 40 1 3 (by decide) (List.replicate 120 120)
      (by decide) (by decide) (fun _ => List.replicate 32 0) [7] (by decide)
      (by decide) (by decide) (by decide) (by decide) (by decide) []
      (fun _ => none) (by decide)⟩

/-! ### Claim C5: the capacity formula -/

/-- C5: for every image size and bits_per_channel in 1..3, the computed
maximum payload capacity equals `floor(w*h*3*bpc / 8) - 44` clamped to 0
from below; in particular a 50x50 image at 2 bits per channel holds 1831
bytes and a 10x10 image at 1 bit per channel holds 0 bytes. -/
theorem maxCapacity_formula (w h bpc : Nat)
    (_hbpc : bpc = 1 ∨ bpc = 2 ∨ bpc = 3) :
    (maxCapacity w h bpc : Int) =
      max 0 (((w * h * 3 * bpc / 8 : Nat) : Int) - 44) ∧
    maxCapacity 50 50 2 = 1831 ∧ maxCapacity 10 10 1 = 0 := by
  refine ⟨?_, by decide, by decide⟩
  simp only [maxCapacity, HEADER_SIZE]
  split <;> omega

/-- Witness for C5 at the concrete 50x50, 2-bits-per-channel instance. -/
theorem maxCapacity_formula_witness :
    ((2 : Nat) = 1 ∨ (2 : Nat) = 2 ∨ (2 : Nat) = 3) ∧
      ((maxCapacity 50 50 2 : Int) =
          max 0 (((50 * 50 * 3 * 2 / 8 : Nat) : Int) - 44) ∧
        maxCapacity 50 50 2 = 1831 ∧ maxCapacity 10 10 1 = 0) :=
  ⟨by decide, maxCapacity_formula 50 50 2 (by decide)⟩

/-! ### Claim C10: embedded channel values stay valid bytes -/

/-- C10: for every channel value `v ≤ 255`, bit `b ≤ 1` and bit position
`p < bpc ≤ 3`, the embedded value `(v & ~(1 << p)) | (b << p)` is again in
`[0, 255]`, so the clamp applied after embedding is the identity. -/
theorem embedBit_in_range (v b p bpc : Nat) (hv : v ≤ 255) (hb : b ≤ 1)
    (hp : p < bpc) (hbpc : bpc ≤ 3) :
    embedBit v p b ≤ 255 ∧ clampN (embedBit v p b) = embedBit v p b := by
  have hp3 : p = 0 ∨ p = 1 ∨ p = 2 := by omega
  rcases hp3 with rfl | rfl | rfl
  · exact (by decide : ∀ v, v ≤ 255 → ∀ b, b ≤ 1 →
      embedBit v 0 b ≤ 255 ∧ clampN (embedBit v 0 b) = embedBit v 0 b) v hv b hb
  · exact (by decide : ∀ v, v ≤ 255 → ∀ b, b ≤ 1 →
      embedBit v 1 b ≤ 255 ∧ clampN (embedBit v 1 b) = embedBit v 1 b) v hv b hb
  · exact (by decide : ∀ v, v ≤ 255 → ∀ b, b ≤ 1 →
      embedBit v 2 b ≤ 255 ∧ clampN (embedBit v 2 b) = embedBit v 2 b) v hv b hb

/-- Witness for C10 at `v = 200`, `b = 1`, `p = 2`, `bpc = 3`. -/
theorem embedBit_in_range_witness :
    (200 ≤ 255 ∧ 1 ≤ 1 ∧ 2 < 3 ∧ 3 ≤ 3) ∧
      (embedBit 200 2 1 ≤ 255 ∧ clampN (embedBit 200 2 1) = embedBit 200 2 1) :=
  ⟨by decide, embedBit_in_range 200 1 2 3 (by decide) (by decide) (by decide) (by decide)⟩

/-! ### Claim C7: header round trip -/

/-- C7: parsing the 44-byte header built from a valid algorithm, a payload
length below 2^32 and a 32-byte hash returns exactly that algorithm,
length and hash (together with the magic, version and algorithm byte the
encoder wrote). -/
theorem header_roundtrip (alg : StegoAlgorithm) (l : Nat) (hsh : List Nat)
    (hl : l < 2 ^ 32) (hlen : hsh.length = 32) :
    parseHeader (createHeader alg l hsh) =
      .ok { magic := magicBytes alg, algorithm := alg, version := VERSION_MAJOR,
            algorithmByte := alg.val, payloadLen := l, sha256 := hsh } :=
  parse_create_header alg l hsh hl hlen

/-- Witness for C7 at a concrete algorithm, length and hash. -/
theorem header_roundtrip_witness :
    (11 < 2 ^ 32 ∧ (List.replicate 32 7).length = 32) ∧
      parseHeader (createHeader .LSB 11 (List.replicate 32 7)) =
        .ok { magic := magicBytes .LSB, algorithm := .LSB,
              version := VERSION_MAJOR, algorithmByte := StegoAlgorithm.val .LSB,
              payloadLen := 11, sha256 := List.replicate 32 7 } :=
  ⟨by decide, header_roundtrip .LSB 11 (List.replicate 32 7) (by decide) (by decide)⟩

/-! ### Claim C4: the capacity boundary of encode -/

/-- C4 counterexample: the original claim quantifies over every image
size, but when `max_capacity` is at least 2^32 — as for a 62000x62000
image at 3 bits per channel — a payload of length exactly `max_capacity`
passes the capacity check and then `struct.pack('<I', payload_len)` inside
`_create_header` raises `struct.error`: encode does not succeed. -/
theorem capacity_boundary_overflow :
    2 ^ 32 ≤ maxCapacity 62000 62000 3 ∧
    (List.replicate (maxCapacity 62000 62000 3) 0).length =
      maxCapacity 62000 62000 3 ∧
    encode 62000 62000 3 .LSB [] [] (fun _ => List.replicate 32 0)
        (List.replicate (maxCapacity 62000 62000 3) 0) =
      .error (.structError "struct.pack argument out of range") := by
  refine ⟨by decide, List.length_replicate _ _, ?_⟩
  simp only [encode, List.length_replicate]
  rw [if_neg (by omega), if_pos (by decide)]

/-- C4 (amended): whenever `max_capacity` fits the header's unsigned
32-bit length field, a payload of length exactly `max_capacity` passes the
capacity check and encode returns a carrier image, for either algorithm; a
payload one byte longer makes encode fail with
`InsufficientCapacityError` (with no bound needed, since that check comes
first), and on every error path no image is produced (the error value
carries none).  For `max_capacity ≥ 2^32` the exact-capacity encode
instead fails with `struct.error`; see the counterexample. -/
theorem capacity_boundary (w h bpc : Nat) (alg : StegoAlgorithm)
    (order base : List Nat) (H : List Nat → List Nat) (d1 d2 : List Nat)
    (h1 : d1.length = maxCapacity w h bpc)
    (h2 : d2.length = maxCapacity w h bpc + 1)
    (hcap32 : maxCapacity w h bpc < 2 ^ 32) :
    (∃ img, encode w h bpc alg order base H d1 = .ok img) ∧
    encode w h bpc alg order base H d2 =
      .error (.insufficientCapacity "Payload exceeds capacity") := by
  constructor
  · have hle : ¬ d1.length > maxCapacity w h bpc := by omega
    have h32 : ¬ 2 ^ 32 ≤ d1.length := not_le.mpr (by rw [h1]; exact hcap32)
    simp only [encode, if_neg hle, if_neg h32]
    cases alg
    · exact ⟨_, rfl⟩
    · exact ⟨_, rfl⟩
  · have hgt : d2.length > maxCapacity w h bpc := by omega
    simp only [encode, if_pos hgt]

/-- Witness for C4 (amended) on a 40x1 image at 3 bits per channel
(capacity 1, well below 2^32). -/
theorem capacity_boundary_witness :
    (([7] : List Nat).length = maxCapacity 40 1 3 ∧
        ([7, 7] : List Nat).length = maxCapacity 40 1 3 + 1 ∧
        maxCapacity 40 1 3 < 2 ^ 32) ∧
      ((∃ img, encode 40 1 3 .LSB [] (List.replicate 120 120)
          (fun _ => List.replicate 32 0) [7] = .ok img) ∧
        encode 40 1 3 .LSB [] (List.replicate 120 120)
            (fun _ => List.replicate 32 0) [7, 7] =
          .error (.insufficientCapacity "Payload exceeds capacity")) :=
  ⟨⟨by decide, by decide, by decide⟩,
    capacity_boundary 40 1 3 .LSB [] (List.replicate 120 120)
      (fun _ => List.replicate 32 0) [7] [7, 7] (by decide) (by decide)
      (by decide)⟩

/-! ### Claim C6: minimality of the automatic bit selection -/

/-- C6 counterexample: for a 10x10 image and payload length 0 the search
returns bits_per_channel 2, although `max_capacity` at 1 bit per channel
(which is 0, clamped) already satisfies `max_capacity ≥ payload_len`: the
loop compares against the unclamped `total_bytes - HEADER_SIZE = -7`, so
the claim that the minimum `b` with `max_capacity(b) ≥ payload_len` is
returned fails at `b = 1`. -/
theorem chooseBits_skips_clamped_capacity :
    chooseBitsForPayload 10 10 0 1 3 = some 2 ∧
    maxCapacity 10 10 1 = 0 ∧ 0 ≤ maxCapacity 10 10 1 ∧ (1 : Nat) < 2 := by
  decide

/-- C6 (amended): `choose_bits_for_payload` returns the minimum
`b ∈ [min_bits, max_bits]` whose unclamped usable capacity
`floor(w*h*3*b/8) - 44` is at least the payload length, and signals
`InsufficientCapacityError` (`none`) exactly when no `b` in the range
fits; for payload lengths ≥ 1 the unclamped comparison agrees with
`max_capacity(...) ≥ payload_len`, so the original claim holds whenever
the payload is nonempty. -/
theorem chooseBits_minimal (w h payloadLen minBits maxBits : Nat) :
    (∀ b, chooseBitsForPayload w h payloadLen minBits maxBits = some b →
        minBits ≤ b ∧ b ≤ maxBits ∧ (payloadLen : Int) ≤ usableAt w h b ∧
          ∀ b2, minBits ≤ b2 → b2 < b → usableAt w h b2 < (payloadLen : Int)) ∧
    (chooseBitsForPayload w h payloadLen minBits maxBits = none →
        ∀ b, minBits ≤ b → b ≤ maxBits → usableAt w h b < (payloadLen : Int)) ∧
    (1 ≤ payloadLen → ∀ b,
        ((payloadLen : Int) ≤ usableAt w h b ↔ payloadLen ≤ maxCapacity w h b)) := by
  have hspec := chooseBitsAux_spec w h payloadLen (maxBits + 1 - minBits) minBits
  refine ⟨?_, ?_, ?_⟩
  · intro b hb
    obtain ⟨ha, hb2, hc, hmin⟩ := hspec.1 b hb
    exact ⟨ha, by omega, hc, hmin⟩
  · intro hnone b hb1 hb2
    exact hspec.2 hnone b hb1 (by omega)
  · intro hpl b
    simp only [usableAt, maxCapacity, HEADER_SIZE]
    split <;> omega

/-- Witness for C6 at a 50x50 image and an 11-byte payload: the chosen
bits_per_channel is 1 and it is minimal. -/
theorem chooseBits_minimal_witness :
    chooseBitsForPayload 50 50 11 1 3 = some 1 ∧
      (1 ≤ 1 ∧ 1 ≤ 3 ∧ (11 : Int) ≤ usableAt 50 50 1) ∧ 11 ≤ maxCapacity 50 50 1 := by
  have h := chooseBits_minimal 50 50 11 1 3
  have hs : chooseBitsForPayload 50 50 11 1 3 = some 1 := by decide
  have h1 := h.1 1 hs
  exact ⟨hs, ⟨h1.1, h1.2.1, h1.2.2.1⟩, (h.2.2 (by decide) 1).mp h1.2.2.1⟩

end PyImgStego

namespace PyText2Img

open PyImgStego (packLE32 unpackLE32 unpack_pack_le32 getD_append_left
  getD_append_right)

/-! ### Claim C3: the CRC check makes Reed-Solomon correction unreachable -/

theorem xor_cancel_right {a b c : Nat} (h : a ^^^ c = b ^^^ c) : a = b := by
  have h2 := congrArg (fun x => x ^^^ c) h
  simpa [Nat.xor_assoc] using h2

theorem crcRound_lt {c : Nat} (hc : c < 2 ^ 32) : crcRound c < 2 ^ 32 := by
  have h1 : c >>> 1 < 2 ^ 32 := by
    rw [Nat.shiftRight_eq_div_pow]
    have : (2 : Nat) ^ 1 = 2 := rfl
    omega
  simp only [crcRound]
  split
  · exact Nat.xor_lt_two_pow h1 (by norm_num)
  · exact h1

theorem crcRound_inj {c d : Nat} (hc : c < 2 ^ 32) (hd : d < 2 ^ 32)
    (h : crcRound c = crcRound d) : c = d := by
  have hP : Nat.testBit 0xEDB88320 31 = true := by decide
  have hcs : (c >>> 1).testBit 31 = false := by
    rw [Nat.testBit_shiftRight]
    exact Nat.testBit_lt_two_pow (by omega)
  have hds : (d >>> 1).testBit 31 = false := by
    rw [Nat.testBit_shiftRight]
    exact Nat.testBit_lt_two_pow (by omega)
  have hmc := Nat.and_one_is_mod c
  have hmd := Nat.and_one_is_mod d
  have hsc : c >>> 1 = c / 2 := by
    rw [Nat.shiftRight_eq_div_pow]
  have hsd : d >>> 1 = d / 2 := by
    rw [Nat.shiftRight_eq_div_pow]
  by_cases h1 : c &&& 1 = 1 <;> by_cases h2 : d &&& 1 = 1
  · simp only [crcRound, if_pos h1, if_pos h2] at h
    have h3 : c >>> 1 = d >>> 1 := xor_cancel_right h
    rw [hsc, hsd] at h3
    omega
  · exfalso
    simp only [crcRound, if_pos h1, if_neg h2] at h
    have hb := congrArg (fun x => x.testBit 31) h
    simp [Nat.testBit_xor, hcs, hds, hP] at hb
  · exfalso
    simp only [crcRound, if_neg h1, if_pos h2] at h
    have hb := congrArg (fun x => x.testBit 31) h
    simp [Nat.testBit_xor, hcs, hds, hP] at hb
  · simp only [crcRound, if_neg h1, if_neg h2] at h
    rw [hsc, hsd] at h
    omega

theorem crcIter_lt (n : Nat) : ∀ c, c < 2 ^ 32 → crcRound^[n] c < 2 ^ 32 := by
  induction n with
  | zero => intro c hc; simpa using hc
  | succ k ih =>
      intro c hc
      rw [Function.iterate_succ_apply]
      exact ih _ (crcRound_lt hc)

theorem crcIter_inj (n : Nat) : ∀ c d, c < 2 ^ 32 → d < 2 ^ 32 →
    crcRound^[n] c = crcRound^[n] d → c = d := by
  induction n with
  | zero => intro c d _ _ h; simpa using h
  | succ k ih =>
      intro c d hc hd h
      rw [Function.iterate_succ_apply, Function.iterate_succ_apply] at h
      exact crcRound_inj hc hd (ih _ _ (crcRound_lt hc) (crcRound_lt hd) h)

theorem crcByte_lt {c b : Nat} (hc : c < 2 ^ 32) (hb : b ≤ 255) :
    crcByte c b < 2 ^ 32 :=
  crcIter_lt 8 _ (Nat.xor_lt_two_pow hc (by omega))

theorem crcByte_inj_state {c d b : Nat} (hc : c < 2 ^ 32) (hd : d < 2 ^ 32)
    (hb : b ≤ 255) (h : crcByte c b = crcByte d b) : c = d := by
  have h2 := crcIter_inj 8 _ _ (Nat.xor_lt_two_pow hc (by omega))
    (Nat.xor_lt_two_pow hd (by omega)) h
  exact xor_cancel_right h2

theorem crcByte_inj_byte {c b b2 : Nat} (hc : c < 2 ^ 32) (hb : b ≤ 255)
    (hb2 : b2 ≤ 255) (h : crcByte c b = crcByte c b2) : b = b2 := by
  have h2 := crcIter_inj 8 _ _ (Nat.xor_lt_two_pow hc (by omega))
    (Nat.xor_lt_two_pow hc (by omega)) h
  have h3 := congrArg (fun x => c ^^^ x) h2
  simpa [← Nat.xor_assoc, Nat.xor_self] using h3

theorem crcFold_lt (l : List Nat) (hl : ∀ x ∈ l, x ≤ 255) :
    ∀ c, c < 2 ^ 32 → l.foldl crcByte c < 2 ^ 32 := by
  induction l with
  | nil => intro c hc; simpa using hc
  | cons b rest ih =>
      intro c hc
      rw [List.foldl_cons]
      exact ih (fun x hx => hl x (by simp [hx])) _ (crcByte_lt hc (hl b (by simp)))

theorem crcFold_inj (l : List Nat) (hl : ∀ x ∈ l, x ≤ 255) :
    ∀ c d, c < 2 ^ 32 → d < 2 ^ 32 → c ≠ d →
      l.foldl crcByte c ≠ l.foldl crcByte d := by
  induction l with
  | nil => intro c d _ _ hne h; exact hne (by simpa using h)
  | cons b rest ih =>
      intro c d hc hd hne h
      rw [List.foldl_cons, List.foldl_cons] at h
      have hb : b ≤ 255 := hl b (by simp)
      exact ih (fun x hx => hl x (by simp [hx])) _ _ (crcByte_lt hc hb)
        (crcByte_lt hd hb)
        (fun he => hne (crcByte_inj_state hc hd hb he)) h

theorem crc32_lt (data : List Nat) (hd : ∀ x ∈ data, x ≤ 255) :
    crc32 data < 2 ^ 32 := by
  simp only [crc32]
  exact Nat.xor_lt_two_pow (crcFold_lt data hd _ (by norm_num)) (by norm_num)

theorem crc32_single_byte_change (pre suf : List Nat)
    (hpre : ∀ x ∈ pre, x ≤ 255) (hsuf : ∀ x ∈ suf, x ≤ 255)
    (c b2 : Nat) (hc : c ≤ 255) (hb2 : b2 ≤ 255) (hne : b2 ≠ c) :
    crc32 (pre ++ b2 :: suf) ≠ crc32 (pre ++ c :: suf) := by
  simp only [crc32]
  intro h
  have h2 : (pre ++ b2 :: suf).foldl crcByte 0xFFFFFFFF =
      (pre ++ c :: suf).foldl crcByte 0xFFFFFFFF := xor_cancel_right h
  rw [List.foldl_append, List.foldl_append, List.foldl_cons, List.foldl_cons] at h2
  have hs : pre.foldl crcByte 0xFFFFFFFF < 2 ^ 32 :=
    crcFold_lt pre hpre _ (by norm_num)
  exact crcFold_inj suf hsuf _ _ (crcByte_lt hs hb2) (crcByte_lt hs hc)
    (fun he => hne (crcByte_inj_byte hs hb2 hc he)) h2

/-- C3: corrupting a single symbol of the embedded Reed-Solomon-encoded
data makes `DataImageEncoder.decode` fail before the Reed-Solomon decoder
ever runs: the stored CRC-32 was computed over the parity-protected bytes,
decode checks it first, a one-byte change always changes the CRC-32, and
so decode raises the CRC-mismatch `ValueError` for every possible
Reed-Solomon decoder — bounded corruption is never corrected.  The
corrupted image bytes are the encode output with the data byte at offset
`pre.length` (image offset `16 + pre.length`) replaced by `b2 ≠ c`. -/
theorem rs_correction_unreachable
    (rsDecode : List Nat → Option (List Nat)) (pre suf : List Nat)
    (hpre : ∀ x ∈ pre, x ≤ 255) (hsuf : ∀ x ∈ suf, x ≤ 255)
    (c b2 : Nat) (hc : c ≤ 255) (hb2 : b2 ≤ 255) (hne : b2 ≠ c)
    (hlen : (pre ++ c :: suf).length < 2 ^ 32) (pad : Nat) :
    dataDecode rsDecode
        ((dataEncodeBytes (pre ++ c :: suf) pad).set (16 + pre.length) b2) =
      .error .crcMismatch := by
  have henc : ∀ x ∈ pre ++ c :: suf, x ≤ 255 := by
    intro x hx
    rcases List.mem_append.mp hx with h | h
    · exact hpre x h
    · rcases List.mem_cons.mp h with rfl | h2
      · exact hc
      · exact hsuf x h2
  have hCb : crc32 (pre ++ c :: suf) < 2 ^ 32 := crc32_lt _ henc
  have hgroup : dataEncodeBytes (pre ++ c :: suf) pad =
      (MAGIC_DATA ++ [FLAG_ERROR_CORRECTION] ++ [0, 0, 0] ++
        packLE32 (pre ++ c :: suf).length ++ packLE32 (crc32 (pre ++ c :: suf))) ++
      (pre ++ c :: (suf ++ List.replicate pad 255)) := by
    simp [dataEncodeBytes, List.append_assoc]
  have hP16 : (MAGIC_DATA ++ [FLAG_ERROR_CORRECTION] ++ [0, 0, 0] ++
      packLE32 (pre ++ c :: suf).length ++
      packLE32 (crc32 (pre ++ c :: suf))).length = 16 := by
    simp [MAGIC_DATA, FLAG_ERROR_CORRECTION, packLE32]
  have hshape : (dataEncodeBytes (pre ++ c :: suf) pad).set (16 + pre.length) b2 =
      68 :: 65 :: 84 :: 65 :: 1 :: 0 :: 0 :: 0 ::
      ((pre ++ c :: suf).length % 256) :: ((pre ++ c :: suf).length / 256 % 256) ::
      ((pre ++ c :: suf).length / 256 ^ 2 % 256) ::
      ((pre ++ c :: suf).length / 256 ^ 3 % 256) ::
      (crc32 (pre ++ c :: suf) % 256) :: (crc32 (pre ++ c :: suf) / 256 % 256) ::
      (crc32 (pre ++ c :: suf) / 256 ^ 2 % 256) ::
      (crc32 (pre ++ c :: suf) / 256 ^ 3 % 256) ::
      (pre ++ b2 :: (suf ++ List.replicate pad 255)) := by
    rw [hgroup, List.set_append_right _ _ (by rw [hP16]; omega), hP16,
      Nat.add_sub_cancel_left,
      List.set_append_right _ _ (Nat.le_refl _), Nat.sub_self,
      List.set_cons_zero]
    simp [MAGIC_DATA, FLAG_ERROR_CORRECTION, packLE32]
  rw [hshape]
  have hlen2 : (68 :: 65 :: 84 :: 65 :: 1 :: 0 :: 0 :: 0 ::
      ((pre ++ c :: suf).length % 256) :: ((pre ++ c :: suf).length / 256 % 256) ::
      ((pre ++ c :: suf).length / 256 ^ 2 % 256) ::
      ((pre ++ c :: suf).length / 256 ^ 3 % 256) ::
      (crc32 (pre ++ c :: suf) % 256) :: (crc32 (pre ++ c :: suf) / 256 % 256) ::
      (crc32 (pre ++ c :: suf) / 256 ^ 2 % 256) ::
      (crc32 (pre ++ c :: suf) / 256 ^ 3 % 256) ::
      (pre ++ b2 :: (suf ++ List.replicate pad 255))).length =
      16 + (pre.length + (1 + (suf.length + pad))) := by
    simp
    omega
  simp only [dataDecode, DATA_HEADER_SIZE, MAGIC_DATA, FLAG_ERROR_CORRECTION,
    hlen2, List.take_succ_cons, List.take_zero, List.getD_cons_succ,
    List.getD_cons_zero, List.drop_succ_cons, List.drop_zero, unpackLE32]
  rw [if_neg (by omega)]
  rw [if_neg (by simp)]
  rw [if_neg (by decide)]
  have hLu : (pre ++ c :: suf).length % 256 +
      (pre ++ c :: suf).length / 256 % 256 * 256 +
      (pre ++ c :: suf).length / 256 ^ 2 % 256 * 256 ^ 2 +
      (pre ++ c :: suf).length / 256 ^ 3 % 256 * 256 ^ 3 =
      (pre ++ c :: suf).length := unpack_pack_le32 _ hlen
  have hCu : crc32 (pre ++ c :: suf) % 256 +
      crc32 (pre ++ c :: suf) / 256 % 256 * 256 +
      crc32 (pre ++ c :: suf) / 256 ^ 2 % 256 * 256 ^ 2 +
      crc32 (pre ++ c :: suf) / 256 ^ 3 % 256 * 256 ^ 3 =
      crc32 (pre ++ c :: suf) := unpack_pack_le32 _ hCb
  rw [hLu, hCu]
  rw [if_neg (by
    simp only [List.length_append, List.length_cons, List.length_replicate]
    omega)]
  rw [show (pre ++ b2 :: (suf ++ List.replicate pad 255)).take
        (pre ++ c :: suf).length = pre ++ b2 :: suf from by
    rw [show pre ++ b2 :: (suf ++ List.replicate pad 255) =
        (pre ++ b2 :: suf) ++ List.replicate pad 255 from by
      simp [List.append_assoc]]
    exact List.take_left' (by simp [List.length_append, List.length_cons])]
  rw [if_pos (crc32_single_byte_change pre suf hpre hsuf c b2 hc hb2 hne)]

/-- Witness for C3: a 12-byte encoded block (2 data + 10 parity-sized
bytes), its second byte corrupted from 105 to 104, two padding pixels, and
a Reed-Solomon decoder that would have succeeded on anything — decode
still fails with the CRC mismatch. -/
theorem rs_correction_unreachable_witness :
    ((105 : Nat) ≤ 255 ∧ (104 : Nat) ≤ 255 ∧ (104 : Nat) ≠ 105 ∧
      (([72] : List Nat) ++ 105 :: List.replicate 10 0).length < 2 ^ 32) ∧
    dataDecode (fun d => some d)
        ((dataEncodeBytes (([72] : List Nat) ++ 105 :: List.replicate 10 0) 2).set
          (16 + ([72] : List Nat).length) 104) =
      .error .crcMismatch :=
  ⟨⟨by decide, by decide, by decide, by decide⟩,
    rs_correction_unreachable (fun d => some d) [72] (List.replicate 10 0)
      (by decide) (by decide) 105 104 (by decide) (by decide) (by decide)
      (by decide) 2⟩

end PyText2Img
